import Mathlib

/-!
# DBTC backend — fulfillment and streak engine, shallow embedding

Embedding of the two pure components of the repository:

* `src/utils/streak.ts` — `calculateStreak` and `calculateLongestStreak`.
  Calendar days are embedded as UTC day indices (`Int`): the code's
  `YYYY-MM-DD` strings are in bijection with day indices, `subDays(d, 1)`
  is `d - 1`, the `toDateStr`/`new Date(s + 'T00:00:00Z')` pair is the
  identity on day indices, and JavaScript's lexicographic `sort()` on ISO
  date strings coincides with numeric order on day indices.  The source's
  `while (dateSet.has(...))` loop is embedded with explicit fuel equal to
  the list length; the loop performs at most one successful iteration per
  distinct member of the set, so this fuel is provably sufficient
  (`runLen_spec`).

* `src/routes/habits.ts` — `isFulfilled`.  The habit row keeps the
  source's runtime shape: `type` is a string, `goal` a nullable numeric
  (Postgres NUMERIC converted by `Number(...)`), `direction` a nullable
  string.  Numeric values are embedded as exact rationals `ℚ`.
-/

namespace DBTC

/-- One step per loop iteration of `while (dateSet.has(toDateStr(cursor)))`
in `calculateStreak`: count the cursor day if present, move the cursor one
day back.  `fuel` bounds the number of iterations; every successful
iteration consumes a distinct member of `dateSet`, so any
`fuel ≥ dateSet.length` is enough to emulate the unbounded loop. -/
def runLen (dateSet : List Int) : Nat → Int → Nat
  | 0, _ => 0
  | fuel + 1, d => if d ∈ dateSet then runLen dateSet fuel (d - 1) + 1 else 0

/-- `calculateStreak` from `src/utils/streak.ts`, with the ambient current
UTC day (`new Date()` truncated to a calendar day) passed explicitly as
`today`.  `yesterday` is `today - 1`. -/
def calculateStreak (today : Int) (completionDates : List Int) : Nat :=
  if completionDates = [] then 0
  else if today ∈ completionDates then
    runLen completionDates completionDates.length today
  else if today - 1 ∈ completionDates then
    runLen completionDates completionDates.length (today - 1)
  else 0

/-- The scan loop of `calculateLongestStreak`: `prev` is `sorted[i-1]`,
`current` and `longest` the two accumulators; `curr - prev = 1` is the
`diffDays === 1` test (day differences are exact). -/
def longestAux : List Int → Int → Nat → Nat → Nat
  | [], _, _, longest => longest
  | curr :: rest, prev, current, longest =>
    if curr - prev = 1 then
      longestAux rest curr (current + 1) (max longest (current + 1))
    else
      longestAux rest curr 1 longest

/-- Entry into the scan once the input is sorted: the source returns 0 on
an empty input and otherwise runs the scan over `sorted[1..]` with both
accumulators at 1 and `prev = sorted[0]`. -/
def longestStart : List Int → Nat
  | [] => 0
  | x :: rest => longestAux rest x 1 1

/-- `calculateLongestStreak` from `src/utils/streak.ts`.  The source sorts
a copy of the input (`[...completionDates].sort()`, lexicographic on ISO
strings = ascending on day indices; the sorted rearrangement of a list of
integers is unique, so the choice of sorting algorithm is immaterial) and
scans adjacent pairs starting from `longest = current = 1`. -/
def calculateLongestStreak (completionDates : List Int) : Nat :=
  longestStart (List.insertionSort (· ≤ ·) completionDates)

/-! ## Fulfillment evaluator (`src/routes/habits.ts`) -/

/-- `'boolean'` habit-type tag. -/
def booleanTy : String := "boolean"

/-- `'counter'` habit-type tag. -/
def counterTy : String := "counter"

/-- `'gauge'` habit-type tag. -/
def gaugeTy : String := "gauge"

/-- `'gte'` counter direction tag. -/
def gteDir : String := "gte"

/-- `'lte'` counter direction tag. -/
def lteDir : String := "lte"

/-- A sample type string outside the recognized tags, for concrete
evaluations. -/
def stepsTy : String := "steps"

/-- The runtime shape of a habit row as `isFulfilled` reads it: `type` is
a string (statically `HabitType`, but an unrecognized tag falls through),
`goal` is `null` or a numeric value (already through `Number(...)`), and
`direction` is `null`, `'gte'` or `'lte'`.  Fields irrelevant to
fulfillment (id, name, color, unit, created_at) are omitted. -/
structure HabitRow where
  type : String
  goal : Option ℚ
  direction : Option String
  deriving DecidableEq

/-- `isFulfilled(habit, todayValue)` from `src/routes/habits.ts`.
`todayValue = none` is JavaScript `null` (nothing logged).  The branches
mirror the source: the boolean branch tests `todayValue !== null &&
todayValue > 0`; then `if (todayValue === null || habit.goal === null)
return false`; the counter branch is the ternary `direction === 'gte' ?
total >= goal : total <= goal` (any non-`'gte'` direction, `'lte'` or
`null`, takes the second arm); the gauge branch tests the ±5% band; and
any other type string reaches the final `return false`. -/
def isFulfilled (habit : HabitRow) (todayValue : Option ℚ) : Bool :=
  if habit.type = booleanTy then
    match todayValue with
    | none => false
    | some v => decide (0 < v)
  else
    match todayValue, habit.goal with
    | none, _ => false
    | some _, none => false
    | some v, some goal =>
      if habit.type = counterTy then
        if habit.direction = some gteDir then decide (goal ≤ v)
        else decide (v ≤ goal)
      else if habit.type = gaugeTy then
        decide (goal * (95 / 100) ≤ v) && decide (v ≤ goal * (105 / 100))
      else
        false

/-- The §3 data-model invariant together with the creation-time
validation of `POST /habits`: the type tag is one of the three known
tags, non-boolean habits carry a non-negative goal, and counter habits
carry a direction that is `'gte'` or `'lte'`. -/
def WellFormed (h : HabitRow) : Prop :=
  (h.type = booleanTy ∨ h.type = counterTy ∨ h.type = gaugeTy) ∧
  (h.type = booleanTy → h.goal = none) ∧
  (h.type ≠ booleanTy → ∃ g : ℚ, h.goal = some g ∧ 0 ≤ g) ∧
  (h.type = counterTy → h.direction = some gteDir ∨ h.direction = some lteDir)

/-! ## The backward walk: fuel adequacy and characterization -/

theorem runLen_zero (S : List Int) (d : Int) : runLen S 0 d = 0 := rfl

theorem runLen_succ (S : List Int) (fuel : Nat) (d : Int) :
    runLen S (fuel + 1) d = if d ∈ S then runLen S fuel (d - 1) + 1 else 0 := rfl

theorem runLen_le_fuel (S : List Int) : ∀ (fuel : Nat) (d : Int), runLen S fuel d ≤ fuel
  | 0, _ => Nat.le_refl 0
  | fuel + 1, d => by
    unfold runLen
    split
    · exact Nat.succ_le_succ (runLen_le_fuel S fuel (d - 1))
    · exact Nat.zero_le _

theorem runLen_mem (S : List Int) :
    ∀ (fuel : Nat) (d : Int) (i : Nat), i < runLen S fuel d → d - (i : Int) ∈ S
  | 0, _, _, h => absurd h (Nat.not_lt_zero _)
  | fuel + 1, d, i, h => by
    unfold runLen at h
    split at h
    · rename_i hd
      match i with
      | 0 => simpa using hd
      | j + 1 =>
        have hj : j < runLen S fuel (d - 1) := Nat.lt_of_succ_lt_succ h
        have := runLen_mem S fuel (d - 1) j hj
        have harith : d - 1 - (j : Int) = d - ((j : Int) + 1) := by ring
        rw [harith] at this
        simpa using this
    · exact absurd h (Nat.not_lt_zero _)

theorem runLen_miss (S : List Int) :
    ∀ (fuel : Nat) (d : Int), runLen S fuel d < fuel → d - (runLen S fuel d : Int) ∉ S
  | 0, _, h => absurd h (Nat.not_lt_zero _)
  | fuel + 1, d, h => by
    by_cases hd : d ∈ S
    · have hrw : runLen S (fuel + 1) d = runLen S fuel (d - 1) + 1 := by
        rw [runLen_succ, if_pos hd]
      rw [hrw] at h ⊢
      have := runLen_miss S fuel (d - 1) (Nat.lt_of_succ_lt_succ h)
      have harith : d - ((runLen S fuel (d - 1) : Int) + 1) =
          d - 1 - (runLen S fuel (d - 1) : Int) := by ring
      push_cast
      rw [harith]
      exact this
    · have hrw : runLen S (fuel + 1) d = 0 := by
        rw [runLen_succ, if_neg hd]
      rw [hrw]
      simpa using hd

theorem runLen_le_card (S : List Int) (fuel : Nat) (d : Int) :
    runLen S fuel d ≤ S.toFinset.card := by
  set k := runLen S fuel d with hk
  have hinj : Set.InjOn (fun i : Nat => d - (i : Int)) (Finset.range k) := by
    intro i _ j _ hij
    simp only at hij
    omega
  have hsub : (Finset.range k).image (fun i : Nat => d - (i : Int)) ⊆ S.toFinset := by
    intro x hx
    rcases Finset.mem_image.1 hx with ⟨i, hi, rfl⟩
    exact List.mem_toFinset.2 (runLen_mem S fuel d i (Finset.mem_range.1 hi))
  calc k = ((Finset.range k).image (fun i : Nat => d - (i : Int))).card := by
        rw [Finset.card_image_of_injOn hinj, Finset.card_range]
    _ ≤ S.toFinset.card := Finset.card_le_card hsub

/-- With any fuel at least the number of distinct dates, the backward walk
stops exactly at the first missing day: every day it counted is present and
the day just past the count is absent.  The source's unbounded `while` loop
satisfies this by construction; fuel `S.length` (as used in
`calculateStreak`) is always adequate. -/
theorem runLen_spec (S : List Int) (fuel : Nat) (d : Int)
    (hf : S.toFinset.card ≤ fuel) :
    (∀ i : Nat, i < runLen S fuel d → d - (i : Int) ∈ S) ∧
      d - (runLen S fuel d : Int) ∉ S := by
  refine ⟨runLen_mem S fuel d, ?_⟩
  rcases Nat.lt_or_ge (runLen S fuel d) fuel with hlt | hge
  · exact runLen_miss S fuel d hlt
  · have hk : runLen S fuel d = fuel := Nat.le_antisymm (runLen_le_fuel S fuel d) hge
    set k := runLen S fuel d with hkdef
    have hcard : S.toFinset.card = k := Nat.le_antisymm (hk ▸ hf) (runLen_le_card S fuel d)
    have hinj : Set.InjOn (fun i : Nat => d - (i : Int)) (Finset.range k) := by
      intro i _ j _ hij
      simp only at hij
      omega
    have hsub : (Finset.range k).image (fun i : Nat => d - (i : Int)) ⊆ S.toFinset := by
      intro x hx
      rcases Finset.mem_image.1 hx with ⟨i, hi, rfl⟩
      exact List.mem_toFinset.2 (runLen_mem S fuel d i (Finset.mem_range.1 hi))
    have hcardim : ((Finset.range k).image (fun i : Nat => d - (i : Int))).card = k := by
      rw [Finset.card_image_of_injOn hinj, Finset.card_range]
    have heq : (Finset.range k).image (fun i : Nat => d - (i : Int)) = S.toFinset :=
      Finset.eq_of_subset_of_card_le hsub (by rw [hcardim, hcard])
    intro hmem
    have : d - (k : Int) ∈ (Finset.range k).image (fun i : Nat => d - (i : Int)) := by
      rw [heq]; exact List.mem_toFinset.2 hmem
    rcases Finset.mem_image.1 this with ⟨i, hi, hieq⟩
    have hik : i < k := Finset.mem_range.1 hi
    omega

/-- A backward run anchored at `d` is determined by its two boundary
properties: all counted days present, first uncounted day absent. -/
theorem backRun_unique {S : List Int} {d : Int} {a b : Nat}
    (ha₁ : ∀ i : Nat, i < a → d - (i : Int) ∈ S) (ha₂ : d - (a : Int) ∉ S)
    (hb₁ : ∀ i : Nat, i < b → d - (i : Int) ∈ S) (hb₂ : d - (b : Int) ∉ S) :
    a = b := by
  by_contra hne
  rcases Nat.lt_or_ge a b with hab | hab
  · exact ha₂ (hb₁ a hab)
  · exact hb₂ (ha₁ b (Nat.lt_of_le_of_ne hab fun h => hne h.symm))

theorem runLen_pos {S : List Int} {d : Int} (hd : d ∈ S) {fuel : Nat} (hf : 0 < fuel) :
    0 < runLen S fuel d := by
  obtain ⟨fuel, rfl⟩ := Nat.exists_eq_succ_of_ne_zero (Nat.pos_iff_ne_zero.1 hf)
  rw [runLen_succ, if_pos hd]
  exact Nat.succ_pos _

theorem card_le_length (S : List Int) : S.toFinset.card ≤ S.length :=
  List.toFinset_card_le S

theorem calculateStreak_of_today {today : Int} {S : List Int} (h : today ∈ S) :
    calculateStreak today S = runLen S S.length today := by
  have hne : S ≠ [] := by rintro rfl; simp at h
  unfold calculateStreak
  rw [if_neg hne, if_pos h]

theorem calculateStreak_of_yesterday {today : Int} {S : List Int}
    (h₁ : today ∉ S) (h₂ : today - 1 ∈ S) :
    calculateStreak today S = runLen S S.length (today - 1) := by
  have hne : S ≠ [] := by rintro rfl; simp at h₂
  unfold calculateStreak
  rw [if_neg hne, if_neg h₁, if_pos h₂]

theorem calculateStreak_of_neither {today : Int} {S : List Int}
    (h₁ : today ∉ S) (h₂ : today - 1 ∉ S) :
    calculateStreak today S = 0 := by
  unfold calculateStreak
  by_cases hne : S = []
  · rw [if_pos hne]
  · rw [if_neg hne, if_neg h₁, if_neg h₂]

/-- The anchored-run characterization of `calculateStreak`: when the
chosen anchor `a` (today, else yesterday) is fulfilled, the result `k` is
positive, the days `a, a-1, …, a-k+1` are all fulfilled, and `a - k` is
not. -/
theorem calculateStreak_run {today : Int} {S : List Int} {a : Int}
    (ha : (today ∈ S ∧ a = today) ∨ (today ∉ S ∧ today - 1 ∈ S ∧ a = today - 1)) :
    0 < calculateStreak today S ∧
      (∀ i : Nat, i < calculateStreak today S → a - (i : Int) ∈ S) ∧
      a - (calculateStreak today S : Int) ∉ S := by
  have hmem : a ∈ S := by
    rcases ha with ⟨h, rfl⟩ | ⟨_, h, rfl⟩ <;> exact h
  have hlen : 0 < S.length := List.length_pos.2 (by rintro rfl; simp at hmem)
  have heq : calculateStreak today S = runLen S S.length a := by
    rcases ha with ⟨h, rfl⟩ | ⟨h₁, h₂, rfl⟩
    · exact calculateStreak_of_today h
    · exact calculateStreak_of_yesterday h₁ h₂
  have hspec := runLen_spec S S.length a (card_le_length S)
  rw [heq]
  exact ⟨runLen_pos hmem hlen, hspec.1, hspec.2⟩

/-! ## The longest-streak scan: soundness and completeness -/

theorem longestAux_nil (p : Int) (cur lg : Nat) : longestAux [] p cur lg = lg := rfl

theorem longestAux_cons (c : Int) (rest : List Int) (p : Int) (cur lg : Nat) :
    longestAux (c :: rest) p cur lg =
      if c - p = 1 then longestAux rest c (cur + 1) (max lg (cur + 1))
      else longestAux rest c 1 lg := rfl

theorem longestAux_ge :
    ∀ (l : List Int) (p : Int) (cur lg : Nat), lg ≤ longestAux l p cur lg
  | [], _, _, _ => le_refl _
  | c :: rest, p, cur, lg => by
    rw [longestAux_cons]
    split
    · exact le_trans (le_max_left _ _) (longestAux_ge rest c _ _)
    · exact longestAux_ge rest c 1 lg

/-- Soundness of the scan: if the elements scanned lie in `S`, the current
run witness is real, and the best-so-far is the length of a real run of
consecutive days in `S`, then the final answer is the length of a real run
of consecutive days in `S`.  No sortedness is needed. -/
theorem longestAux_sound (S : List Int) :
    ∀ (l : List Int) (p : Int) (cur lg : Nat),
      (∀ x ∈ l, x ∈ S) →
      (∀ i : Nat, i < cur → p - (i : Int) ∈ S) →
      (∃ d : Int, ∀ i : Nat, i < lg → d + (i : Int) ∈ S) →
      ∃ d : Int, ∀ i : Nat, i < longestAux l p cur lg → d + (i : Int) ∈ S
  | [], _, _, _, _, _, hlg => by rw [longestAux_nil]; exact hlg
  | c :: rest, p, cur, lg, hl, hcur, hlg => by
    have hcS : c ∈ S := hl c (List.mem_cons_self c rest)
    rw [longestAux_cons]
    split
    · rename_i hdiff
      apply longestAux_sound S rest c (cur + 1) (max lg (cur + 1))
      · exact fun x hx => hl x (List.mem_cons_of_mem _ hx)
      · intro i hi
        match i with
        | 0 => simpa using hcS
        | j + 1 =>
          have hj : p - (j : Int) ∈ S := hcur j (by omega)
          have harith : c - ((j : Nat) + 1 : Int) = p - (j : Int) := by omega
          push_cast
          rw [harith]
          exact hj
      · rcases le_total lg (cur + 1) with hmax | hmax
        · rw [max_eq_right hmax]
          refine ⟨c - (cur : Int), fun i hi => ?_⟩
          rcases Nat.lt_or_ge i cur with hic | hic
          · have hs := hcur (cur - 1 - i) (by omega)
            have harith : c - (cur : Int) + (i : Int) = p - ((cur - 1 - i : Nat) : Int) := by
              omega
            rw [harith]
            exact hs
          · have hicur : i = cur := by omega
            subst hicur
            have harith : c - (i : Int) + (i : Int) = c := by ring
            rw [harith]
            exact hcS
        · rw [max_eq_left hmax]
          exact hlg
    · apply longestAux_sound S rest c 1 lg
      · exact fun x hx => hl x (List.mem_cons_of_mem _ hx)
      · intro i hi
        have hi0 : i = 0 := by omega
        subst hi0
        simpa using hcS
      · exact hlg

/-- Completeness of the scan over a strictly sorted remainder: under the
loop invariant — `cur` is the exact length of the fulfilled run ending at
`prev`, every element of `S` is either already scanned (hence `≤ prev`) or
still ahead, and `lg` bounds every run of consecutive days of `S` ending
at or before `prev` — the final answer bounds every run of consecutive
days of `S`. -/
theorem longestAux_complete (S : List Int) :
    ∀ (l : List Int) (p : Int) (cur lg : Nat),
      List.Sorted (· < ·) l →
      (∀ x ∈ l, p < x) →
      (∀ x ∈ l, x ∈ S) →
      (∀ x : Int, x ∈ S → x ≤ p ∨ x ∈ l) →
      (∀ i : Nat, i < cur → p - (i : Int) ∈ S) →
      p - (cur : Int) ∉ S →
      1 ≤ lg → cur ≤ lg →
      (∀ (d : Int) (k : Nat), 1 ≤ k → (∀ i : Nat, i < k → d + (i : Int) ∈ S) →
        d + (k : Int) - 1 ≤ p → k ≤ lg) →
      ∀ (d : Int) (k : Nat), (∀ i : Nat, i < k → d + (i : Int) ∈ S) →
        k ≤ longestAux l p cur lg
  | [], p, cur, lg, _, _, _, hcover, _, _, _, _, hhist, d, k, hrun => by
    rw [longestAux_nil]
    rcases Nat.eq_zero_or_pos k with hk0 | hk1
    · omega
    · have hend : d + ((k - 1 : Nat) : Int) ∈ S := hrun (k - 1) (by omega)
      have hendle : d + (k : Int) - 1 ≤ p := by
        rcases hcover _ hend with hle | hmem
        · omega
        · simp at hmem
      exact hhist d k hk1 hrun hendle
  | c :: rest, p, cur, lg, hsort, habove, hl, hcover, hcur, hleft, hlg1, hclg, hhist,
      d, k, hrun => by
    have hcS : c ∈ S := hl c (List.mem_cons_self c rest)
    have hpc : p < c := habove c (List.mem_cons_self c rest)
    have hcrest : ∀ x ∈ rest, c < x := List.rel_of_sorted_cons hsort
    have hsrest : List.Sorted (· < ·) rest := hsort.of_cons
    have hlrest : ∀ x ∈ rest, x ∈ S := fun x hx => hl x (List.mem_cons_of_mem _ hx)
    have hcoverc : ∀ x : Int, x ∈ S → x ≤ c ∨ x ∈ rest := by
      intro x hx
      rcases hcover x hx with hle | hmem
      · exact Or.inl (le_trans hle (le_of_lt hpc))
      · rcases List.mem_cons.1 hmem with rfl | hr
        · exact Or.inl (le_refl x)
        · exact Or.inr hr
    rw [longestAux_cons]
    split
    · rename_i hdiff
      apply longestAux_complete S rest c (cur + 1) (max lg (cur + 1)) hsrest hcrest hlrest
        hcoverc ?_ ?_ ?_ ?_ ?_ d k hrun
      · intro i hi
        match i with
        | 0 => simpa using hcS
        | j + 1 =>
          have hj : p - (j : Int) ∈ S := hcur j (by omega)
          have harith : c - ((j : Nat) + 1 : Int) = p - (j : Int) := by omega
          push_cast
          rw [harith]
          exact hj
      · have harith : c - ((cur : Nat) + 1 : Int) = p - (cur : Int) := by omega
        push_cast
        rw [harith]
        exact hleft
      · exact le_trans hlg1 (le_max_left _ _)
      · exact le_max_right _ _
      · intro e m hm hrunm hendm
        have hendS : e + ((m - 1 : Nat) : Int) ∈ S := hrunm (m - 1) (by omega)
        rcases le_or_lt (e + (m : Int) - 1) p with hp | hp
        · exact le_trans (hhist e m hm hrunm hp) (le_max_left _ _)
        · -- the run ends in `(p, c]`, hence exactly at `c`
          have hec : e + (m : Int) - 1 = c := by
            rcases hcover _ hendS with hle | hmem
            · omega
            · rcases List.mem_cons.1 hmem with heq | hr
              · omega
              · have := hcrest _ hr
                omega
          -- a run ending at `c` longer than `cur + 1` would cross `p - cur`
          by_contra hgt
          push_neg at hgt
          have hmbig : cur + 2 ≤ m := by
            have := le_max_right lg (cur + 1)
            omega
          have hidx : e + ((m - cur - 2 : Nat) : Int) ∈ S := hrunm (m - cur - 2) (by omega)
          have harith : e + ((m - cur - 2 : Nat) : Int) = p - (cur : Int) := by omega
          rw [harith] at hidx
          exact hleft hidx
    · rename_i hdiff
      have hc2 : p + 2 ≤ c := by omega
      have hc1S : c - 1 ∉ S := by
        intro hmem
        rcases hcover _ hmem with hle | hm
        · omega
        · rcases List.mem_cons.1 hm with heq | hr
          · omega
          · have := hcrest _ hr
            omega
      apply longestAux_complete S rest c 1 lg hsrest hcrest hlrest hcoverc ?_ ?_ hlg1
        hlg1 ?_ d k hrun
      · intro i hi
        have hi0 : i = 0 := by omega
        subst hi0
        simpa using hcS
      · simpa using hc1S
      · intro e m hm hrunm hendm
        have hendS : e + ((m - 1 : Nat) : Int) ∈ S := hrunm (m - 1) (by omega)
        rcases le_or_lt (e + (m : Int) - 1) p with hp | hp
        · exact hhist e m hm hrunm hp
        · have hec : e + (m : Int) - 1 = c := by
            rcases hcover _ hendS with hle | hmem
            · omega
            · rcases List.mem_cons.1 hmem with heq | hr
              · omega
              · have := hcrest _ hr
                omega
          rcases Nat.lt_or_ge m 2 with hm2 | hm2
          · omega
          · exfalso
            have hidx : e + ((m - 2 : Nat) : Int) ∈ S := hrunm (m - 2) (by omega)
            have harith : e + ((m - 2 : Nat) : Int) = c - 1 := by omega
            rw [harith] at hidx
            exact hc1S hidx

theorem sorted_lt_of_le_nodup {l : List Int}
    (hs : List.Sorted (· ≤ ·) l) (hn : l.Nodup) : List.Sorted (· < ·) l :=
  (List.Pairwise.and hs hn).imp fun h => lt_of_le_of_ne h.1 h.2

theorem sortedList_sorted (l : List Int) :
    List.Sorted (· ≤ ·) (List.insertionSort (· ≤ ·) l) :=
  List.sorted_insertionSort (· ≤ ·) l

theorem sortedList_perm (l : List Int) : List.Perm (List.insertionSort (· ≤ ·) l) l :=
  List.perm_insertionSort (· ≤ ·) l

/-- Completeness of `calculateLongestStreak` on a duplicate-free input:
every run of consecutive fulfilled days is counted. -/
theorem longest_complete {S : List Int} (hnd : S.Nodup) {d : Int} {k : Nat}
    (hrun : ∀ i : Nat, i < k → d + (i : Int) ∈ S) :
    k ≤ calculateLongestStreak S := by
  have hperm := sortedList_perm S
  have hmem : ∀ x : Int, x ∈ List.insertionSort (· ≤ ·) S ↔ x ∈ S :=
    fun x => hperm.mem_iff
  unfold calculateLongestStreak
  rcases hlist : List.insertionSort (· ≤ ·) S with _ | ⟨x, rest⟩
  · rw [hlist] at hperm
    have hSnil : S = [] := hperm.symm.eq_nil
    rcases Nat.eq_zero_or_pos k with hk0 | hk1
    · simp [hk0, longestStart]
    · have := hrun 0 hk1
      rw [hSnil] at this
      simp at this
  · have hsortlt : List.Sorted (· < ·) (x :: rest) := by
      have hnd' : (x :: rest).Nodup := by
        rw [← hlist]
        exact (sortedList_perm S).nodup_iff.2 hnd
      have hs' : List.Sorted (· ≤ ·) (x :: rest) := hlist ▸ sortedList_sorted S
      exact sorted_lt_of_le_nodup hs' hnd'
    have hxmem : x ∈ S := by
      rw [← hmem x, hlist]
      exact List.mem_cons_self x rest
    have hrx : ∀ y ∈ rest, x < y := List.rel_of_sorted_cons hsortlt
    have hrestS : ∀ y ∈ rest, y ∈ S := by
      intro y hy
      rw [← hmem y, hlist]
      exact List.mem_cons_of_mem _ hy
    have hcover : ∀ y : Int, y ∈ S → y ≤ x ∨ y ∈ rest := by
      intro y hy
      have : y ∈ x :: rest := by rw [← hlist, hmem y]; exact hy
      rcases List.mem_cons.1 this with rfl | hr
      · exact Or.inl (le_refl y)
      · exact Or.inr hr
    have hminS : ∀ y : Int, y ∈ S → x ≤ y := by
      intro y hy
      have : y ∈ x :: rest := by rw [← hlist, hmem y]; exact hy
      rcases List.mem_cons.1 this with rfl | hr
      · exact le_refl y
      · exact le_of_lt (hrx _ hr)
    have hx1 : x - 1 ∉ S := by
      intro hmem1
      have := hminS _ hmem1
      omega
    show k ≤ longestStart (x :: rest)
    show k ≤ longestAux rest x 1 1
    apply longestAux_complete S rest x 1 1 hsortlt.of_cons hrx hrestS hcover ?_ ?_
      (le_refl 1) (le_refl 1) ?_ d k hrun
    · intro i hi
      have hi0 : i = 0 := by omega
      subst hi0
      simpa using hxmem
    · simpa using hx1
    · intro e m hm hrunm hendm
      have hendS : e + ((m - 1 : Nat) : Int) ∈ S := hrunm (m - 1) (by omega)
      have hec : e + (m : Int) - 1 = x := by
        have := hminS _ hendS
        omega
      rcases Nat.lt_or_ge m 2 with hm2 | hm2
      · omega
      · exfalso
        have hidx : e + ((m - 2 : Nat) : Int) ∈ S := hrunm (m - 2) (by omega)
        have harith : e + ((m - 2 : Nat) : Int) = x - 1 := by omega
        rw [harith] at hidx
        exact hx1 hidx

/-- Soundness of `calculateLongestStreak`: on a non-empty input the result
is the length of an actual run of consecutive fulfilled days.  Holds for
arbitrary inputs, duplicates included. -/
theorem longest_sound (S : List Int) (hne : S ≠ []) :
    ∃ d : Int, ∀ i : Nat, i < calculateLongestStreak S → d + (i : Int) ∈ S := by
  have hperm := sortedList_perm S
  have hmem : ∀ x : Int, x ∈ List.insertionSort (· ≤ ·) S ↔ x ∈ S :=
    fun x => hperm.mem_iff
  unfold calculateLongestStreak
  rcases hlist : List.insertionSort (· ≤ ·) S with _ | ⟨x, rest⟩
  · rw [hlist] at hperm
    exact absurd hperm.symm.eq_nil hne
  · have hxmem : x ∈ S := by
      rw [← hmem x, hlist]
      exact List.mem_cons_self x rest
    have hrestS : ∀ y ∈ rest, y ∈ S := by
      intro y hy
      rw [← hmem y, hlist]
      exact List.mem_cons_of_mem _ hy
    show ∃ d : Int, ∀ i : Nat, i < longestStart (x :: rest) → d + (i : Int) ∈ S
    show ∃ d : Int, ∀ i : Nat, i < longestAux rest x 1 1 → d + (i : Int) ∈ S
    apply longestAux_sound S rest x 1 1 hrestS
    · intro i hi
      have hi0 : i = 0 := by omega
      subst hi0
      simpa using hxmem
    · refine ⟨x, fun i hi => ?_⟩
      have hi0 : i = 0 := by omega
      subst hi0
      simpa using hxmem

/-- On a non-empty input the longest streak is at least 1. -/
theorem longest_pos (S : List Int) (hne : S ≠ []) :
    1 ≤ calculateLongestStreak S := by
  unfold calculateLongestStreak
  rcases hlist : List.insertionSort (· ≤ ·) S with _ | ⟨x, rest⟩
  · have hperm := sortedList_perm S
    rw [hlist] at hperm
    exact absurd hperm.symm.eq_nil hne
  · exact longestAux_ge rest x 1 1

/-! ## Congruence: the results depend only on which dates are present -/

theorem runLen_eq_of_mem_iff {S T : List Int} (h : ∀ x : Int, x ∈ S ↔ x ∈ T)
    (d : Int) {f₁ f₂ : Nat} (h₁ : S.toFinset.card ≤ f₁) (h₂ : T.toFinset.card ≤ f₂) :
    runLen S f₁ d = runLen T f₂ d := by
  obtain ⟨hm₁, hx₁⟩ := runLen_spec S f₁ d h₁
  obtain ⟨hm₂, hx₂⟩ := runLen_spec T f₂ d h₂
  exact backRun_unique hm₁ hx₁ (fun i hi => (h _).2 (hm₂ i hi)) fun hc => hx₂ ((h _).1 hc)

/-- `calculateStreak` depends only on date membership: any two lists with
the same members (regardless of order, multiplicity or length) give the
same current streak. -/
theorem calculateStreak_congr (today : Int) {l₁ l₂ : List Int}
    (hmem : ∀ x : Int, x ∈ l₁ ↔ x ∈ l₂) :
    calculateStreak today l₁ = calculateStreak today l₂ := by
  by_cases hnil : l₁ = []
  · subst hnil
    have hnil₂ : l₂ = [] := by
      apply List.eq_nil_iff_forall_not_mem.2
      intro x hx
      exact (List.not_mem_nil x) ((hmem x).2 hx)
    subst hnil₂
    rfl
  · by_cases ht : today ∈ l₁
    · rw [calculateStreak_of_today ht, calculateStreak_of_today ((hmem today).1 ht)]
      exact runLen_eq_of_mem_iff hmem today (card_le_length l₁) (card_le_length l₂)
    · have ht₂ : today ∉ l₂ := fun h => ht ((hmem today).2 h)
      by_cases hy : today - 1 ∈ l₁
      · rw [calculateStreak_of_yesterday ht hy,
          calculateStreak_of_yesterday ht₂ ((hmem _).1 hy)]
        exact runLen_eq_of_mem_iff hmem _ (card_le_length l₁) (card_le_length l₂)
      · rw [calculateStreak_of_neither ht hy,
          calculateStreak_of_neither ht₂ fun h => hy ((hmem _).2 h)]

/-- `calculateLongestStreak` is invariant under permutation of its input:
two permuted lists have the same (unique) sorted rearrangement. -/
theorem calculateLongestStreak_perm {l₁ l₂ : List Int} (h : List.Perm l₁ l₂) :
    calculateLongestStreak l₁ = calculateLongestStreak l₂ := by
  unfold calculateLongestStreak
  congr 1
  exact List.eq_of_perm_of_sorted
    ((sortedList_perm l₁).trans (h.trans (sortedList_perm l₂).symm))
    (sortedList_sorted l₁) (sortedList_sorted l₂)

/-- Deduplicating the input cannot decrease — and may strictly increase —
the computed longest streak: the scan's answer on any list is a real run
of distinct consecutive days, all present in the deduplicated list. -/
theorem calculateLongestStreak_le_dedup (l : List Int) :
    calculateLongestStreak l ≤ calculateLongestStreak l.dedup := by
  by_cases hnil : l = []
  · subst hnil
    exact Nat.le_refl _
  · obtain ⟨d, hd⟩ := longest_sound l hnil
    exact longest_complete (List.nodup_dedup l) fun i hi => List.mem_dedup.2 (hd i hi)

/-! ## Claims -/

/-- C1: anchor selection for the current streak.  For every fulfilled set
`S` and ambient current UTC day `today`: when neither `today` nor
`yesterday = today - 1` is in `S` the result is 0 regardless of older
dates; when `today ∈ S` the result counts backwards from `today` (all
counted days present, the next one absent); otherwise, when
`yesterday ∈ S`, it counts backwards from `yesterday`. -/
theorem claim_c1_anchor_selection (S : List Int) (today : Int) :
    (today ∉ S → today - 1 ∉ S → calculateStreak today S = 0) ∧
    (today ∈ S →
      0 < calculateStreak today S ∧
      (∀ i : Nat, i < calculateStreak today S → today - (i : Int) ∈ S) ∧
      today - (calculateStreak today S : Int) ∉ S) ∧
    (today ∉ S → today - 1 ∈ S →
      0 < calculateStreak today S ∧
      (∀ i : Nat, i < calculateStreak today S → today - 1 - (i : Int) ∈ S) ∧
      today - 1 - (calculateStreak today S : Int) ∉ S) := by
  refine ⟨fun h₁ h₂ => calculateStreak_of_neither h₁ h₂, ?_, ?_⟩
  · intro h
    exact calculateStreak_run (Or.inl ⟨h, rfl⟩)
  · intro h₁ h₂
    exact calculateStreak_run (Or.inr ⟨h₁, h₂, rfl⟩)

/-- Witness for C1 at `today = 10`, `S = [5, 8]`: both anchors absent, the
streak is 0 despite older history. -/
theorem claim_c1_witness :
    (10 : Int) ∉ ([5, 8] : List Int) ∧ (10 : Int) - 1 ∉ ([5, 8] : List Int) ∧
      calculateStreak 10 [5, 8] = 0 :=
  ⟨by decide, by decide, (claim_c1_anchor_selection [5, 8] 10).1 (by decide) (by decide)⟩

/-- C5: exact current-streak count.  If the anchor day and exactly the `N`
immediately preceding consecutive days are fulfilled and the day before
that run is not, `calculateStreak` returns exactly `N + 1`, in both the
today-anchored and the yesterday-anchored case. -/
theorem claim_c5_exact_count (N : Nat) (today : Int) (S : List Int) :
    ((∀ i : Nat, i ≤ N → today - (i : Int) ∈ S) → today - (N : Int) - 1 ∉ S →
      calculateStreak today S = N + 1) ∧
    (today ∉ S → (∀ i : Nat, i ≤ N → today - 1 - (i : Int) ∈ S) →
      today - 1 - (N : Int) - 1 ∉ S →
      calculateStreak today S = N + 1) := by
  constructor
  · intro hrun hmiss
    have hmem : today ∈ S := by simpa using hrun 0 (Nat.zero_le N)
    obtain ⟨_, hm, hx⟩ := calculateStreak_run (Or.inl ⟨hmem, rfl⟩)
    apply backRun_unique hm hx (fun i hi => hrun i (by omega))
    intro hmem'
    apply hmiss
    have harith : today - ((N + 1 : Nat) : Int) = today - (N : Int) - 1 := by
      push_cast; ring
    rwa [harith] at hmem'
  · intro htoday hrun hmiss
    have hmem : today - 1 ∈ S := by simpa using hrun 0 (Nat.zero_le N)
    obtain ⟨_, hm, hx⟩ := calculateStreak_run (Or.inr ⟨htoday, hmem, rfl⟩)
    apply backRun_unique hm hx (fun i hi => hrun i (by omega))
    intro hmem'
    apply hmiss
    have harith : today - 1 - ((N + 1 : Nat) : Int) = today - 1 - (N : Int) - 1 := by
      push_cast; ring
    rwa [harith] at hmem'

/-- Witness for C5 at `N = 1`, `today = 10`, `S = [10, 9]`: the anchor and
one preceding day are present, day 8 is absent, and the streak is 2. -/
theorem claim_c5_witness :
    (∀ i : Nat, i ≤ 1 → (10 : Int) - (i : Int) ∈ ([10, 9] : List Int)) ∧
      (10 : Int) - (1 : Int) - 1 ∉ ([10, 9] : List Int) ∧
      calculateStreak 10 [10, 9] = 1 + 1 := by
  have h₁ : ∀ i : Nat, i ≤ 1 → (10 : Int) - (i : Int) ∈ ([10, 9] : List Int) := by
    intro i hi
    interval_cases i <;> decide
  exact ⟨h₁, by decide, (claim_c5_exact_count 1 10 [10, 9]).1 h₁ (by decide)⟩

/-- C6: whenever the current streak is positive (equivalently, the chosen
anchor is fulfilled), the longest streak on a duplicate-free input is at
least the current streak — the run ending at the anchor is a historical
run. -/
theorem claim_c6_longest_ge_current (today : Int) (S : List Int) (hnd : S.Nodup)
    (hpos : 0 < calculateStreak today S) :
    calculateStreak today S ≤ calculateLongestStreak S := by
  by_cases ht : today ∈ S
  · obtain ⟨_, hm, _⟩ := calculateStreak_run (S := S) (Or.inl ⟨ht, rfl⟩)
    apply longest_complete hnd (d := today - (calculateStreak today S : Int) + 1)
    intro i hi
    have hmem := hm (calculateStreak today S - 1 - i) (by omega)
    have harith : today - (calculateStreak today S : Int) + 1 + (i : Int) =
        today - ((calculateStreak today S - 1 - i : Nat) : Int) := by omega
    rw [harith]
    exact hmem
  · by_cases hy : today - 1 ∈ S
    · obtain ⟨_, hm, _⟩ := calculateStreak_run (S := S) (Or.inr ⟨ht, hy, rfl⟩)
      apply longest_complete hnd (d := today - 1 - (calculateStreak today S : Int) + 1)
      intro i hi
      have hmem := hm (calculateStreak today S - 1 - i) (by omega)
      have harith : today - 1 - (calculateStreak today S : Int) + 1 + (i : Int) =
          today - 1 - ((calculateStreak today S - 1 - i : Nat) : Int) := by omega
      rw [harith]
      exact hmem
    · rw [calculateStreak_of_neither ht hy] at hpos
      omega

/-- Witness for C6 at `today = 10`, `S = [10]`: streak 1, longest 1. -/
theorem claim_c6_witness :
    ([10] : List Int).Nodup ∧ 0 < calculateStreak 10 [10] ∧
      calculateStreak 10 [10] ≤ calculateLongestStreak [10] :=
  ⟨by decide, by decide, claim_c6_longest_ge_current 10 [10] (by decide) (by decide)⟩

/-- C7: duplicate safety.  Both functions are total (no crash is
possible); on an input with duplicates `calculateStreak` agrees with the
deduplicated input, and `calculateLongestStreak` never exceeds its value
on the deduplicated input. -/
theorem claim_c7_duplicate_safety (today : Int) (l : List Int) (_hdup : ¬ l.Nodup) :
    calculateStreak today l = calculateStreak today l.dedup ∧
    calculateLongestStreak l ≤ calculateLongestStreak l.dedup :=
  ⟨calculateStreak_congr today fun _ => (List.mem_dedup).symm,
   calculateLongestStreak_le_dedup l⟩

/-- Witness for C7 on the duplicate list `[0, 0]`. -/
theorem claim_c7_witness :
    ¬ ([0, 0] : List Int).Nodup ∧
      (calculateStreak 0 [0, 0] = calculateStreak 0 (([0, 0] : List Int).dedup) ∧
        calculateLongestStreak [0, 0] ≤ calculateLongestStreak (([0, 0] : List Int).dedup)) :=
  ⟨by decide, claim_c7_duplicate_safety 0 [0, 0] (by decide)⟩

/-- C9: determinism and order-independence.  For a fixed ambient `today`,
repeated calls on the same input agree, and both functions return the same
value on any permutation of the input. -/
theorem claim_c9_determinism (today : Int) (l₁ l₂ : List Int) (hperm : List.Perm l₁ l₂) :
    calculateStreak today l₁ = calculateStreak today l₁ ∧
    calculateLongestStreak l₁ = calculateLongestStreak l₁ ∧
    calculateStreak today l₁ = calculateStreak today l₂ ∧
    calculateLongestStreak l₁ = calculateLongestStreak l₂ :=
  ⟨rfl, rfl, calculateStreak_congr today fun _ => hperm.mem_iff,
   calculateLongestStreak_perm hperm⟩

/-- Witness for C9 on the permuted pair `[1, 2]`, `[2, 1]`. -/
theorem claim_c9_witness :
    List.Perm ([1, 2] : List Int) [2, 1] ∧
      (calculateStreak 2 [1, 2] = calculateStreak 2 [1, 2] ∧
        calculateLongestStreak [1, 2] = calculateLongestStreak [1, 2] ∧
        calculateStreak 2 [1, 2] = calculateStreak 2 [2, 1] ∧
        calculateLongestStreak [1, 2] = calculateLongestStreak [2, 1]) :=
  ⟨List.Perm.swap 2 1 [], claim_c9_determinism 2 [1, 2] [2, 1] (List.Perm.swap 2 1 [])⟩

/-- C4 (amended): longest-streak correctness.  `calculateLongestStreak`
returns 0 on the empty list and at least 1 on any non-empty list; on every
DUPLICATE-FREE list it returns exactly the length of the longest run of
consecutive calendar days (it is the length of an actual run, and no run
is longer); and the spec's concrete scenario holds.  The restriction to
duplicate-free lists is forced by `claim_c4_counterexample`: a duplicated
date resets the scan's run counter, so on inputs with duplicates the
result can undercount the longest distinct run. -/
theorem claim_c4_longest_correct (S : List Int) :
    (S = [] → calculateLongestStreak S = 0) ∧
    (S ≠ [] → 1 ≤ calculateLongestStreak S) ∧
    (S.Nodup →
      (∃ d : Int, ∀ i : Nat, i < calculateLongestStreak S → d + (i : Int) ∈ S) ∧
      (∀ (d : Int) (k : Nat), (∀ i : Nat, i < k → d + (i : Int) ∈ S) →
        k ≤ calculateLongestStreak S)) ∧
    calculateLongestStreak [19723, 19724, 19725, 19727] = 3 ∧
    calculateStreak 19727 [19723, 19724, 19725, 19727] = 1 := by
  refine ⟨?_, longest_pos S, ?_, by decide, by decide⟩
  · rintro rfl
    rfl
  · intro hnd
    refine ⟨?_, fun d k hrun => longest_complete hnd hrun⟩
    by_cases hnil : S = []
    · subst hnil
      have h0 : calculateLongestStreak ([] : List Int) = 0 := rfl
      exact ⟨0, fun i hi => absurd hi (by rw [h0]; omega)⟩
    · exact longest_sound S hnil

/-- Counterexample to C4 as stated: on the duplicate-containing input
`["2024-01-01","2024-01-02","2024-01-02","2024-01-03"]` (day indices
19723, 19724, 19724, 19725) the function returns 2, although the distinct
input dates contain a run of 3 consecutive days starting at 19723. -/
theorem claim_c4_counterexample :
    calculateLongestStreak [19723, 19724, 19724, 19725] = 2 ∧
      ∀ i : Nat, i < 3 → (19723 : Int) + (i : Int) ∈
        ([19723, 19724, 19724, 19725] : List Int) := by
  refine ⟨by decide, ?_⟩
  intro i hi
  interval_cases i <;> decide

/-- Witness for C4 on the spec's scenario list: non-empty and duplicate
free, so the exact characterization applies; day 19725 starts no run of
length 4. -/
theorem claim_c4_witness :
    ([19723, 19724, 19725, 19727] : List Int) ≠ [] ∧
      ([19723, 19724, 19725, 19727] : List Int).Nodup ∧
      1 ≤ calculateLongestStreak [19723, 19724, 19725, 19727] ∧
      (∀ (d : Int) (k : Nat),
        (∀ i : Nat, i < k → d + (i : Int) ∈ ([19723, 19724, 19725, 19727] : List Int)) →
        k ≤ calculateLongestStreak [19723, 19724, 19725, 19727]) :=
  ⟨by decide, by decide,
   (claim_c4_longest_correct [19723, 19724, 19725, 19727]).2.1 (by decide),
   ((claim_c4_longest_correct [19723, 19724, 19725, 19727]).2.2.1 (by decide)).2⟩

/-! ## Fulfillment evaluator: branch lemmas -/

theorem counterTy_ne_booleanTy : counterTy ≠ booleanTy := by decide

theorem gaugeTy_ne_booleanTy : gaugeTy ≠ booleanTy := by decide

theorem gaugeTy_ne_counterTy : gaugeTy ≠ counterTy := by decide

theorem gteDir_ne_lteDir : gteDir ≠ lteDir := by decide

theorem isFulfilled_none (h : HabitRow) : isFulfilled h none = false := by
  unfold isFulfilled
  split
  · rfl
  · rfl

theorem isFulfilled_goal_none {h : HabitRow} (hty : h.type ≠ booleanTy)
    (hg : h.goal = none) (t : Option ℚ) : isFulfilled h t = false := by
  unfold isFulfilled
  rw [if_neg hty]
  cases t with
  | none => rfl
  | some v => rw [hg]

theorem isFulfilled_boolean_eq {h : HabitRow} (hty : h.type = booleanTy) (v : ℚ) :
    isFulfilled h (some v) = decide (0 < v) := by
  unfold isFulfilled
  rw [if_pos hty]

theorem isFulfilled_counter_eq {h : HabitRow} (hty : h.type = counterTy) {g : ℚ}
    (hg : h.goal = some g) (v : ℚ) :
    isFulfilled h (some v) =
      if h.direction = some gteDir then decide (g ≤ v) else decide (v ≤ g) := by
  unfold isFulfilled
  rw [if_neg (by rw [hty]; exact counterTy_ne_booleanTy), hg]
  show (if h.type = counterTy then
      (if h.direction = some gteDir then decide (g ≤ v) else decide (v ≤ g))
    else if h.type = gaugeTy then
      decide (g * (95 / 100) ≤ v) && decide (v ≤ g * (105 / 100))
    else false) =
    if h.direction = some gteDir then decide (g ≤ v) else decide (v ≤ g)
  rw [if_pos hty]

theorem isFulfilled_gauge_eq {h : HabitRow} (hty : h.type = gaugeTy) {g : ℚ}
    (hg : h.goal = some g) (v : ℚ) :
    isFulfilled h (some v) =
      (decide (g * (95 / 100) ≤ v) && decide (v ≤ g * (105 / 100))) := by
  unfold isFulfilled
  rw [if_neg (by rw [hty]; exact gaugeTy_ne_booleanTy), hg]
  show (if h.type = counterTy then
      (if h.direction = some gteDir then decide (g ≤ v) else decide (v ≤ g))
    else if h.type = gaugeTy then
      decide (g * (95 / 100) ≤ v) && decide (v ≤ g * (105 / 100))
    else false) = (decide (g * (95 / 100) ≤ v) && decide (v ≤ g * (105 / 100)))
  rw [if_neg (by rw [hty]; exact gaugeTy_ne_counterTy), if_pos hty]

theorem isFulfilled_unknown_eq {h : HabitRow} (hb : h.type ≠ booleanTy)
    (hc : h.type ≠ counterTy) (hgg : h.type ≠ gaugeTy) (t : Option ℚ) :
    isFulfilled h t = false := by
  unfold isFulfilled
  rw [if_neg hb]
  cases t with
  | none => rfl
  | some v =>
    cases h.goal with
    | none => rfl
    | some g =>
      show (if h.type = counterTy then
          (if h.direction = some gteDir then decide (g ≤ v) else decide (v ≤ g))
        else if h.type = gaugeTy then
          decide (g * (95 / 100) ≤ v) && decide (v ≤ g * (105 / 100))
        else false) = false
      rw [if_neg hc, if_neg hgg]

/-- Counterexample to C2 as stated: a counter habit with `direction:
null`, goal 5 and a logged total of 3 IS reported fulfilled — the
source's ternary `direction === 'gte' ? total >= goal : total <= goal`
sends a null direction into the `lte` arm, it does not return `false`. -/
theorem claim_c2_counterexample :
    isFulfilled ⟨counterTy, some 5, none⟩ (some 3) = true := by decide

/-- C2 (amended): configuration-inconsistency handling for a counter
habit with a null direction.  `isFulfilled` never raises (it is a total
function); it returns `false` whenever the daily total is absent, and —
per the null-goal guard — whenever the goal is null; but when a goal `g`
and a total `v` are both present it evaluates the `lte` comparison
`v ≤ g` instead of returning `false`. -/
theorem claim_c2_null_direction (h : HabitRow) (hty : h.type = counterTy)
    (hdir : h.direction = none) :
    isFulfilled h none = false ∧
    (h.goal = none → ∀ t : Option ℚ, isFulfilled h t = false) ∧
    (∀ g v : ℚ, h.goal = some g → (isFulfilled h (some v) = true ↔ v ≤ g)) := by
  have hb : h.type ≠ booleanTy := by rw [hty]; exact counterTy_ne_booleanTy
  refine ⟨isFulfilled_none h, fun hg t => isFulfilled_goal_none hb hg t, ?_⟩
  intro g v hg
  rw [isFulfilled_counter_eq hty hg v, hdir,
    if_neg (fun hcon => Option.noConfusion hcon), decide_eq_true_iff]

/-- Witness for C2 (amended) on the habit `{type: counter, goal: 5,
direction: null}`. -/
theorem claim_c2_witness :
    isFulfilled ⟨counterTy, some 5, none⟩ none = false ∧
      ((⟨counterTy, some 5, none⟩ : HabitRow).goal = none →
        ∀ t : Option ℚ, isFulfilled ⟨counterTy, some 5, none⟩ t = false) ∧
      (∀ g v : ℚ, (⟨counterTy, some 5, none⟩ : HabitRow).goal = some g →
        (isFulfilled ⟨counterTy, some 5, none⟩ (some v) = true ↔ v ≤ g)) :=
  claim_c2_null_direction ⟨counterTy, some 5, none⟩ rfl rfl

/-- C3: per-type fulfillment rules.  For every well-formed configuration,
an absent total is never fulfilled, and a present total `v` is fulfilled
exactly per the type's rule: boolean — `v > 0`; counter — `v ≥ goal`
under `gte`, `v ≤ goal` under `lte`; gauge — `0.95·goal ≤ v ≤
1.05·goal`. -/
theorem claim_c3_per_type (h : HabitRow) (hwf : WellFormed h) :
    isFulfilled h none = false ∧
    ∀ v : ℚ, (isFulfilled h (some v) = true ↔
      ((h.type = booleanTy ∧ 0 < v) ∨
       (h.type = counterTy ∧ ∃ g : ℚ, h.goal = some g ∧
         ((h.direction = some gteDir ∧ g ≤ v) ∨
          (h.direction = some lteDir ∧ v ≤ g))) ∨
       (h.type = gaugeTy ∧ ∃ g : ℚ, h.goal = some g ∧
         g * (95 / 100) ≤ v ∧ v ≤ g * (105 / 100)))) := by
  obtain ⟨htri, _, hng, hdir⟩ := hwf
  refine ⟨isFulfilled_none h, fun v => ?_⟩
  rcases htri with hty | hty | hty
  · rw [isFulfilled_boolean_eq hty v, decide_eq_true_iff]
    constructor
    · exact fun hv => Or.inl ⟨hty, hv⟩
    · rintro (⟨_, hv⟩ | ⟨hc, _⟩ | ⟨hc, _⟩)
      · exact hv
      · exact absurd (hty.symm.trans hc) counterTy_ne_booleanTy.symm
      · exact absurd (hty.symm.trans hc) gaugeTy_ne_booleanTy.symm
  · obtain ⟨g, hg, _⟩ := hng (by rw [hty]; exact counterTy_ne_booleanTy)
    rw [isFulfilled_counter_eq hty hg v]
    rcases hdir hty with hd | hd
    · rw [hd, if_pos rfl, decide_eq_true_iff]
      constructor
      · exact fun hle => Or.inr (Or.inl ⟨hty, g, hg, Or.inl ⟨rfl, hle⟩⟩)
      · rintro (⟨hb, _⟩ | ⟨_, g', hg', hcase⟩ | ⟨hb, _⟩)
        · exact absurd (hty.symm.trans hb) counterTy_ne_booleanTy
        · rw [hg] at hg'
          injection hg' with hgg
          subst hgg
          rcases hcase with ⟨_, hle⟩ | ⟨hld, _⟩
          · exact hle
          · injection hld with hdd
            exact absurd hdd gteDir_ne_lteDir
        · exact absurd (hty.symm.trans hb) gaugeTy_ne_counterTy.symm
    · rw [hd, if_neg (fun hcon => gteDir_ne_lteDir (Option.some.inj hcon).symm),
        decide_eq_true_iff]
      constructor
      · exact fun hle => Or.inr (Or.inl ⟨hty, g, hg, Or.inr ⟨rfl, hle⟩⟩)
      · rintro (⟨hb, _⟩ | ⟨_, g', hg', hcase⟩ | ⟨hb, _⟩)
        · exact absurd (hty.symm.trans hb) counterTy_ne_booleanTy
        · rw [hg] at hg'
          injection hg' with hgg
          subst hgg
          rcases hcase with ⟨hgd, _⟩ | ⟨_, hle⟩
          · injection hgd with hdd
            exact absurd hdd.symm gteDir_ne_lteDir
          · exact hle
        · exact absurd (hty.symm.trans hb) gaugeTy_ne_counterTy.symm
  · obtain ⟨g, hg, _⟩ := hng (by rw [hty]; exact gaugeTy_ne_booleanTy)
    rw [isFulfilled_gauge_eq hty hg v, Bool.and_eq_true, decide_eq_true_iff,
      decide_eq_true_iff]
    constructor
    · rintro ⟨h1, h2⟩
      exact Or.inr (Or.inr ⟨hty, g, hg, h1, h2⟩)
    · rintro (⟨hb, _⟩ | ⟨hb, _⟩ | ⟨_, g', hg', h1, h2⟩)
      · exact absurd (hty.symm.trans hb) gaugeTy_ne_booleanTy
      · exact absurd (hty.symm.trans hb) gaugeTy_ne_counterTy
      · rw [hg] at hg'
        injection hg' with hgg
        subst hgg
        exact ⟨h1, h2⟩

/-- Witness for C3 on the well-formed habit `{type: counter, goal: 8,
direction: gte}` (the spec's §8 scenario `total = 8` is fulfilled). -/
theorem claim_c3_witness :
    WellFormed ⟨counterTy, some 8, some gteDir⟩ ∧
      isFulfilled ⟨counterTy, some 8, some gteDir⟩ (some 8) = true := by
  have hwf : WellFormed ⟨counterTy, some 8, some gteDir⟩ :=
    ⟨Or.inr (Or.inl rfl), fun hb => absurd hb counterTy_ne_booleanTy,
     fun _ => ⟨8, rfl, by norm_num⟩, fun _ => Or.inl rfl⟩
  refine ⟨hwf, ?_⟩
  rw [((claim_c3_per_type ⟨counterTy, some 8, some gteDir⟩ hwf).2 8)]
  exact Or.inr (Or.inl ⟨rfl, 8, rfl, Or.inl ⟨rfl, le_refl 8⟩⟩)

/-- C8: gauge habit with `goal = 0`.  The ±5% band collapses to the single
point 0: a total is fulfilled exactly when it is present and equal to 0,
with no special-casing for the zero goal. -/
theorem claim_c8_gauge_zero_goal (dir : Option String) (t : Option ℚ) :
    isFulfilled ⟨gaugeTy, some 0, dir⟩ t = true ↔ t = some 0 := by
  cases t with
  | none =>
    rw [isFulfilled_none]
    simp
  | some v =>
    rw [isFulfilled_gauge_eq rfl rfl v, Bool.and_eq_true, decide_eq_true_iff,
      decide_eq_true_iff]
    constructor
    · rintro ⟨h1, h2⟩
      have hv : v = 0 := le_antisymm (by simpa using h2) (by simpa using h1)
      rw [hv]
    · rintro hv
      injection hv with hv0
      subst hv0
      norm_num

/-- Witness for C8: a zero total against a zero goal is fulfilled. -/
theorem claim_c8_witness : isFulfilled ⟨gaugeTy, some 0, none⟩ (some 0) = true :=
  (claim_c8_gauge_zero_goal none (some 0)).2 rfl

/-- C10 (implicit): unknown-type fallback.  A habit whose type string is
none of the three known tags is never fulfilled, for every goal,
direction and total (present or absent): every such call reaches the
final `return false`, and no error is raised. -/
theorem claim_c10_unknown_type (ty : String) (hb : ty ≠ booleanTy)
    (hc : ty ≠ counterTy) (hg : ty ≠ gaugeTy) (goal : Option ℚ)
    (dir : Option String) (t : Option ℚ) :
    isFulfilled ⟨ty, goal, dir⟩ t = false :=
  isFulfilled_unknown_eq hb hc hg t

/-- Witness for C10 on the unrecognized type string `"steps"`. -/
theorem claim_c10_witness :
    isFulfilled ⟨stepsTy, some 5, some gteDir⟩ (some 100) = false :=
  claim_c10_unknown_type stepsTy (by decide) (by decide) (by decide)
    (some 5) (some gteDir) (some 100)

end DBTC
